import Mathlib

/-!
Verification of the go-dhcp-leases program against its specification.

The program reads an ISC-DHCP lease log, reconciles the blocks per IP
address into a map, and prints a report joined with an OUI (vendor
prefix) store.  The Lean definitions below are a shallow embedding of
the Go source in `go-dhcp-leases.go` (and the variant source files of
the same repository): Go strings are lists of characters (`Str`; the
inputs relevant here are ASCII, where Go's byte-indexed operations and
the character view coincide), `time.Time` values are an `Int` tick
count (Go compares wall-clock times by a total order, `a.After b`
being strict `>`), byte slices (`net.IP`, `net.HardwareAddr`) are
`List Nat`, and the Go maps keyed by strings are association lists
with in-place update.  External library parsers (`net.ParseIP`,
`time.ParseInLocation`, `net.ParseMAC`, `net.IP.String`) are
abstracted as a record of functions (`NetLib`); the theorems about the
lease parser quantify over them, and a concrete small instance is
supplied to build witnesses.  Fallible paths (Go `logger.Fatalf`
aborts and runtime panics such as out-of-range indexing) are
`Except.error`.
-/

namespace DhcpLeases

instance exceptDecEq {ε α : Type} [DecidableEq ε] [DecidableEq α] :
    DecidableEq (Except ε α) := fun x y =>
  match x, y with
  | .error a, .error b =>
    if h : a = b then .isTrue (by rw [h]) else .isFalse (fun hh => h (by injection hh))
  | .error _, .ok _ => .isFalse (fun hh => Except.noConfusion hh)
  | .ok _, .error _ => .isFalse (fun hh => Except.noConfusion hh)
  | .ok a, .ok b =>
    if h : a = b then .isTrue (by rw [h]) else .isFalse (fun hh => h (by injection hh))

/-- A Go string, viewed as its character sequence. -/
abbrev Str := List Char

/-! ## Go string primitives on `Str` -/

/-- Whitespace recognized by `strings.TrimSpace` (ASCII part). -/
def isSpaceChar (c : Char) : Bool :=
  decide (c = ' ') || decide (c = '\t') || decide (c = '\n') || decide (c = '\r')

/-- `strings.TrimSpace`: strip leading and trailing whitespace. -/
def trimStr (s : Str) : Str :=
  ((s.dropWhile isSpaceChar).reverse.dropWhile isSpaceChar).reverse

/-- `strings.HasPrefix`. -/
def hasPrefixStr (s pre : Str) : Bool :=
  pre.isPrefixOf s

/-- `strings.HasSuffix`. -/
def hasSuffixStr (s suf : Str) : Bool :=
  suf.isSuffixOf s

/-- `strings.Split` with a one-character separator (every separator
used by the program — `" "`, `";"`, `"\""`, `":"`, `"."` — is one
character). -/
def splitOnChar (sep : Char) : Str → List Str
  | [] => [[]]
  | c :: rest =>
    if c = sep then [] :: splitOnChar sep rest
    else
      match splitOnChar sep rest with
      | [] => [[c]]
      | g :: gs => (c :: g) :: gs

/-! ## Go map model: association lists with in-place update -/

/-- Lookup in a Go map modelled as an association list (`m[k]`). -/
def mapLookup {κ α : Type} [DecidableEq κ] (m : List (κ × α)) (k : κ) : Option α :=
  (m.find? (fun p => decide (p.1 = k))).map (·.2)

/-- Assignment `m[k] = v` in a Go map: replace the binding in place, or
append a new binding when the key is absent. -/
def mapUpdate {κ α : Type} [DecidableEq κ] : List (κ × α) → κ → α → List (κ × α)
  | [], k, v => [(k, v)]
  | p :: rest, k, v => if p.1 = k then (k, v) :: rest else p :: mapUpdate rest k v

/-! ## Data model: `leaseInfo` and the external parser interface -/

/-- The `leaseInfo` struct of the source.  `count` is a Go `int`; lease
counts stay far below `2^63` for any realistic input (one block per
unit of count), so wrap-around is immaterial and it is modelled as
`Nat`.  Times are `Int` ticks, byte slices are `List Nat`; `ipAddress`
is `none` when Go's `net.ParseIP` returned `nil`. -/
structure LeaseInfo where
  ipAddress : Option (List Nat)
  count : Nat
  startTime : Int
  endTime : Int
  clttTime : Int
  macAddress : List Nat
  hostname : Str
deriving DecidableEq

/-- The lease record opened on a `lease <ip> {` header line: `count = 1`
and every other field the Go zero value. -/
def newLeaseInfo (ip : Option (List Nat)) : LeaseInfo :=
  { ipAddress := ip, count := 1, startTime := 0, endTime := 0, clttTime := 0,
    macAddress := [], hostname := [] }

/-- Interface of the external (Go standard library) parsers used by
`readLeasesFile`.  `parseIP` returning `none` models `net.ParseIP`
returning `nil`; `parseTime`/`parseMAC` returning `none` model the
error returns of `time.ParseInLocation` / `net.ParseMAC`. -/
structure NetLib where
  parseIP : Str → Option (List Nat)
  ipToString : List Nat → Str
  parseTime : Str → Option Int
  parseMAC : Str → Option (List Nat)

/-- `net.IP.String` as used for the lease-map key: Go renders a `nil`
IP as the literal string `"<nil>"`. -/
def ipKeyString (lib : NetLib) : Option (List Nat) → Str
  | none => "<nil>".toList
  | some bs => lib.ipToString bs

/-! ## The lease reconciler merge (the `}` branch of `readLeasesFile`) -/

/-- Merge of an incoming closed block into the existing record for the
same IP: `totalCount := currentLeaseInfo.count + existingLeaseInfo.count`;
the incoming block replaces the existing record exactly when its
`endTime` is strictly later (`time.Time.After`), otherwise only the
count of the existing record changes. -/
def mergeLease (existing incoming : LeaseInfo) : LeaseInfo :=
  if existing.endTime < incoming.endTime
  then { incoming with count := incoming.count + existing.count }
  else { existing with count := incoming.count + existing.count }

/-- The map mutation performed when a `}` line closes a block
(`readLeasesFile`, lines 197-215). -/
def reconcileClose (m : List (Str × LeaseInfo)) (k : Str) (incoming : LeaseInfo) :
    List (Str × LeaseInfo) :=
  match mapLookup m k with
  | some existing => mapUpdate m k (mergeLease existing incoming)
  | none => mapUpdate m k incoming

/-! ## The lease log parser state machine -/

/-- The loop state of `readLeasesFile`: the accumulated map, the
`currentIP` / `currentLeaseInfo` variables and the `withinLease` flag. -/
structure ParseState where
  leaseMap : List (Str × LeaseInfo)
  currentIP : Option (List Nat)
  currentLease : Option LeaseInfo
  withinLease : Bool
deriving DecidableEq

/-- State before the first line of input. -/
def initState : ParseState :=
  { leaseMap := [], currentIP := none, currentLease := none, withinLease := false }

/-- Extraction of `split[2] + " " + split[3]` from a timestamp line and
its parse; Go panics when the indexes are out of range and calls
`logger.Fatalf` when the parse fails. -/
def fieldTime (lib : NetLib) (line : Str) : Except Str Int :=
  match (splitOnChar ' ' line).get? 2, (splitOnChar ' ' line).get? 3 with
  | some t2, some t3 =>
    match lib.parseTime (t2 ++ [' '] ++ t3) with
    | some t => .ok t
    | none => .error "fatal: error parsing timeString".toList
  | _, _ => .error "panic: index out of range".toList

/-- One iteration of the scanner loop of `readLeasesFile` on one input
line.  Faithful to the source branch for branch; `Except.error` stands
for both `logger.Fatalf` aborts and Go runtime panics. -/
def stepLine (lib : NetLib) (st : ParseState) (rawLine : Str) : Except Str ParseState :=
  let line := trimStr rawLine
  if st.withinLease = false then
    if hasPrefixStr line "lease ".toList && hasSuffixStr line " \x7b".toList then
      match (splitOnChar ' ' line).get? 1 with
      | none => .error "panic: index out of range".toList
      | some ipLit =>
        .ok { st with currentIP := lib.parseIP ipLit,
                      currentLease := some (newLeaseInfo (lib.parseIP ipLit)),
                      withinLease := true }
    else .ok st
  else
    if hasPrefixStr line "starts".toList then
      match st.currentLease with
      | none => .error "panic: nil currentLeaseInfo".toList
      | some cl =>
        match fieldTime lib line with
        | .error e => .error e
        | .ok t => .ok { st with currentLease := some { cl with startTime := t } }
    else if hasPrefixStr line "ends".toList then
      match st.currentLease with
      | none => .error "panic: nil currentLeaseInfo".toList
      | some cl =>
        match fieldTime lib line with
        | .error e => .error e
        | .ok t => .ok { st with currentLease := some { cl with endTime := t } }
    else if hasPrefixStr line "cltt".toList then
      match st.currentLease with
      | none => .error "panic: nil currentLeaseInfo".toList
      | some cl =>
        match fieldTime lib line with
        | .error e => .error e
        | .ok t => .ok { st with currentLease := some { cl with clttTime := t } }
    else if hasPrefixStr line "hardware ethernet ".toList then
      match st.currentLease with
      | none => .error "panic: nil currentLeaseInfo".toList
      | some cl =>
        match (splitOnChar ' ' line).get? 2 with
        | none => .error "panic: index out of range".toList
        | some tok =>
          match (splitOnChar ';' tok).get? 0 with
          | none => .error "panic: index out of range".toList
          | some macStr =>
            match lib.parseMAC macStr with
            | none => .error "fatal: error parsing macString".toList
            | some mac => .ok { st with currentLease := some { cl with macAddress := mac } }
    else if hasPrefixStr line "client-hostname ".toList then
      match st.currentLease with
      | none => .error "panic: nil currentLeaseInfo".toList
      | some cl =>
        match (splitOnChar '"' line).get? 1 with
        | none => .error "panic: index out of range".toList
        | some h => .ok { st with currentLease := some { cl with hostname := h } }
    else if hasPrefixStr line "\x7d".toList then
      match st.currentLease with
      | none => .ok { st with withinLease := false, currentLease := none }
      | some cl =>
        .ok { st with withinLease := false, currentLease := none,
                      leaseMap := reconcileClose st.leaseMap (ipKeyString lib st.currentIP) cl }
    else .ok st

/-- The scanner loop over all lines. -/
def runLines (lib : NetLib) (st : ParseState) : List Str → Except Str ParseState
  | [] => .ok st
  | l :: rest =>
    match stepLine lib st l with
    | .error e => .error e
    | .ok st' => runLines lib st' rest

/-- `readLeasesFile` on the list of input lines: the returned lease map
(a trailing unterminated block is dropped with the loop state). -/
def readLeasesFile (lib : NetLib) (lines : List Str) :
    Except Str (List (Str × LeaseInfo)) :=
  (runLines lib initState lines).map (·.leaseMap)

/-! ## Specification-side description of lease blocks

`closedBlockKeys` follows the spec's words: the IP-address keys of the
`lease <ip> {` headers that have a matching closing `}` line, in file
order.  It mirrors only the block structure (header / close) of the
state machine, ignoring the field directives, and is compared with the
full parser in the theorems. -/

def blockKeysAux (lib : NetLib) : Bool → Option (List Nat) → List Str → List Str
  | _, _, [] => []
  | within, cur, l :: rest =>
    let line := trimStr l
    if within then
      if hasPrefixStr line "\x7d".toList then
        ipKeyString lib cur :: blockKeysAux lib false cur rest
      else blockKeysAux lib true cur rest
    else if hasPrefixStr line "lease ".toList && hasSuffixStr line " \x7b".toList then
      blockKeysAux lib true (lib.parseIP ((splitOnChar ' ' line).getD 1 [])) rest
    else blockKeysAux lib false cur rest

/-- The per-block IP keys of a lease log, straight from the spec's
notion of a lease block. -/
def closedBlockKeys (lib : NetLib) (lines : List Str) : List Str :=
  blockKeysAux lib false none lines

/-- The loop invariant of the scanner: map keys are distinct, every
stored count is positive, and the `withinLease` flag agrees with the
`currentLeaseInfo` variable, which always carries `count = 1` while
inside a block (the field directives fill the other fields in place). -/
def StInv (st : ParseState) : Prop :=
  (st.leaseMap.map Prod.fst).Nodup
  ∧ (∀ p ∈ st.leaseMap, 1 ≤ p.2.count)
  ∧ (st.withinLease = true → ∃ cl, st.currentLease = some cl ∧ cl.count = 1)
  ∧ (st.withinLease = false → st.currentLease = none)

/-- The count stored for a key in the lease map (0 when absent). -/
def recCount (m : List (Str × LeaseInfo)) (k : Str) : Nat :=
  match mapLookup m k with
  | some r => r.count
  | none => 0

/-! ## The reconciler viewed on the observation sequence of one IP -/

/-- Feeding one observation to the reconciler for a fixed IP: the first
observation is inserted as-is, later ones go through `mergeLease`.
This is the `}`-branch logic of `readLeasesFile` restricted to a single
map key. -/
def reconcileObs (acc : Option LeaseInfo) (obs : LeaseInfo) : Option LeaseInfo :=
  match acc with
  | none => some obs
  | some existing => some (mergeLease existing obs)

/-- Reconciling a whole observation sequence for one IP. -/
def reconcileOne (l : List LeaseInfo) : Option LeaseInfo :=
  l.foldl reconcileObs none

/-- The reconciler fold once the first observation is in place. -/
def foldMerge (e : LeaseInfo) (l : List LeaseInfo) : LeaseInfo :=
  l.foldl mergeLease e

/-- The field-selection part of the reconciler fold: starting from `e`,
keep the incumbent unless the next observation's `endTime` is strictly
later. -/
def pickLease (e : LeaseInfo) (l : List LeaseInfo) : LeaseInfo :=
  l.foldl (fun acc a => if acc.endTime < a.endTime then a else acc) e

/-- Latest `endTime` in a nonempty observation list (`0` for `[]`). -/
def maxEnd : List LeaseInfo → Int
  | [] => 0
  | e :: t => t.foldl (fun m a => max m a.endTime) e.endTime

/-- Total of the observation counts. -/
def sumCounts (l : List LeaseInfo) : Nat :=
  (l.map (·.count)).sum

/-- All fields of a record except `count`. -/
def leaseSel (r : LeaseInfo) :
    Option (List Nat) × Int × Int × Int × List Nat × Str :=
  (r.ipAddress, r.startTime, r.endTime, r.clttTime, r.macAddress, r.hostname)

/-! ## Lease state classifier -/

/-- The four lifecycle states of the classifier. -/
inductive LeaseState where
  | Abandoned
  | Future
  | Current
  | Past
deriving DecidableEq

/-- Modelled from the spec: the lease state classifier is not present in
the source files under `src/` (the `leaseInfo` struct there carries no
`abandoned` field and no state is computed); the spec describes it as a
pure function of `(abandoned, startTime, endTime, now)` with `Abandoned`
taking priority, then `Future` when `now < startTime`, `Current` when
`startTime ≤ now ≤ endTime`, and `Past` otherwise. -/
def classifyLease (abandonedFlag : Bool) (startTime endTime now : Int) : LeaseState :=
  if abandonedFlag then .Abandoned
  else if now < startTime then .Future
  else if startTime ≤ now ∧ now ≤ endTime then .Current
  else .Past

/-! ## OUI registry parsing and the vendor store build (`createOuiDB`) -/

/-- `isHexDigits` from the source: every rune is a hex digit. -/
def isHexDigits (s : Str) : Bool :=
  s.all fun r =>
    (decide ('0' ≤ r) && decide (r ≤ '9')) ||
    (decide ('a' ≤ r) && decide (r ≤ 'f')) ||
    (decide ('A' ≤ r) && decide (r ≤ 'F'))

/-- Per-line processing of `createOuiDB` up to the key/organization
extraction: trim the scanned line, skip it when shorter than 23
characters or when its first 6 characters are not all hex digits,
otherwise produce the colon-separated lower-cased key and the
organization text starting at column 22. -/
def parseOuiLine (rawLine : Str) : Option (Str × Str) :=
  let line := trimStr rawLine
  if line.length < 23 then none
  else
    let ouiString := line.take 6
    if ¬ isHexDigits ouiString then none
    else
      let key := (ouiString.take 2 ++ [':'] ++ (ouiString.drop 2).take 2 ++ [':']
                    ++ ouiString.drop 4).map Char.toLower
      some (key, line.drop 22)

/-- The accumulation loop of `createOuiDB`: `inserted` is the
`insertedKeys` set, `store` the persisted key→organization contents.
A duplicate key is skipped via `insertedKeys` before any write, so the
batched flushes of the bolt variant put each key exactly once and the
final bucket equals this accumulation. -/
def buildOuiStoreAux (inserted : List Str) (store : List (Str × Str)) :
    List Str → List (Str × Str)
  | [] => store
  | l :: rest =>
    match parseOuiLine l with
    | none => buildOuiStoreAux inserted store rest
    | some (k, org) =>
      if inserted.contains k then buildOuiStoreAux inserted store rest
      else buildOuiStoreAux (k :: inserted) (store ++ [(k, org)]) rest

/-- The vendor store contents produced by one build run over the
registry lines. -/
def buildOuiStore (lines : List Str) : List (Str × Str) :=
  buildOuiStoreAux [] [] lines

/-! ## Vendor store read path (`printLeaseMap`, bolt variant) -/

/-- A persisted store file: the key→organization bucket, which is
`none` when the build never created it. -/
structure OuiStore where
  bucket : Option (List (Str × Str))
deriving DecidableEq

/-- Opening the store read-only at report time.  `bolt.Open` (and
likewise the sqlite read DSN) fails on an absent store file, which the
source answers with `logger.Fatalf`; an absent file is the `none`
argument. -/
def openOuiDBReadOnly (file : Option OuiStore) : Except Str OuiStore :=
  match file with
  | none => .error "fatal: bolt.Open error".toList
  | some s => .ok s

/-- `tx.Bucket(...).Get(key)` in the report loop: a missing bucket is a
nil pointer dereference (panic); a missing key yields `nil`. -/
def bucketGet (b : Option (List (Str × Str))) (k : Str) :
    Except Str (Option Str) :=
  match b with
  | none => .error "panic: nil bucket".toList
  | some entries => .ok (mapLookup entries k)

/-- The organization column of one report row: start from `"UNKNOWN"`
and overwrite it only when the store lookup returns a value. -/
def lookupOrganization (s : OuiStore) (ouiKey : Str) : Except Str Str :=
  match bucketGet s.bucket ouiKey with
  | .error e => .error e
  | .ok none => .ok "UNKNOWN".toList
  | .ok (some v) => .ok v

/-- The organization lookups performed by `printLeaseMap` for the given
row keys: the store is opened read-only first (aborting the run when
that open fails), then each key is resolved. -/
def printLeaseMapOrgs (file : Option OuiStore) (keys : List Str) :
    Except Str (List Str) :=
  match openOuiDBReadOnly file with
  | .error e => .error e
  | .ok s => keys.mapM (lookupOrganization s)

/-! ## Report ordering (`printLeaseMap`, IP collection and sort) -/

/-- `bytes.Compare a b < 0`: lexicographic byte-slice comparison. -/
def bytesCompareLt : List Nat → List Nat → Bool
  | [], [] => false
  | [], _ :: _ => true
  | _ :: _, [] => false
  | a :: as, b :: bs => if a < b then true else if b < a then false else bytesCompareLt as bs

/-- The sort relation realized by `sort.Slice` with the `bytes.Compare`
less function: `x` may precede `y` iff `y` is not strictly below `x`. -/
def ipLe (x y : List Nat) : Prop := bytesCompareLt y x = false

instance : DecidableRel ipLe := fun x y => by
  unfold ipLe
  infer_instance

/-- The byte slice underlying a `net.IP` (a `nil` IP is the empty
slice). -/
def ipBytes (o : Option (List Nat)) : List Nat := o.getD []

/-- The IP slice collected from the lease map by `printLeaseMap`. -/
def collectIPs (m : List (Str × LeaseInfo)) : List (List Nat) :=
  m.map (fun p => ipBytes p.2.ipAddress)

/-- The row order of the report: the collected IPs sorted ascending by
`bytes.Compare` (`sort.Slice` guarantees a sorted permutation; it is
modelled by insertion sort). -/
def sortIPsForReport (m : List (Str × LeaseInfo)) : List (List Nat) :=
  List.insertionSort ipLe (collectIPs m)

/-! ## MAC rendering and the vendor key slice (`printLeaseMap` rows) -/

/-- One digit of Go's `hexDigit` constant table. -/
def hexDigitChar (n : Nat) : Char :=
  "0123456789abcdef".toList.getD n '0'

/-- The two hex characters of one byte (`b>>4`, `b&0xF`). -/
def hexByteChars (b : Nat) : List Char :=
  [hexDigitChar (b / 16 % 16), hexDigitChar (b % 16)]

/-- `net.HardwareAddr.String`: colon-separated lowercase hex bytes, the
empty string for an empty (zero-value) address. -/
def macHwString : List Nat → Str
  | [] => []
  | [b] => hexByteChars b
  | b :: rest => hexByteChars b ++ ':' :: macHwString rest

/-- Go string slicing `s[lo:hi]`: defined only when `lo ≤ hi ≤ len(s)`,
a panic (modelled as `none`) otherwise. -/
def goStringSlice (s : Str) (lo hi : Nat) : Option Str :=
  if lo ≤ hi ∧ hi ≤ s.length then some ((s.drop lo).take (hi - lo))
  else none

/-- The vendor lookup key of one report row:
`strings.ToLower(macString[0:8])`. -/
def rowOuiKey (mac : List Nat) : Option Str :=
  (goStringSlice (macHwString mac) 0 8).map (·.map Char.toLower)

/-! ## A concrete instance of the external parsers

The theorems about the lease parser quantify over every `NetLib`; the
definitions below give one small executable instance (covering the
dotted-quad IPv4 / colon-hex MAC / fixed-format timestamp subsets of
the Go parsers) used to instantiate witnesses and counterexamples on
concrete inputs. -/

/-- One decimal field of a dotted-quad IPv4 literal (digits only, no
leading zero, value at most 255). -/
def parseIPv4Field (s : Str) : Option Nat :=
  if s ≠ [] ∧ s.length ≤ 3 ∧ s.all Char.isDigit ∧ (1 < s.length → s.headD '0' ≠ '0') then
    let n := s.foldl (fun acc c => acc * 10 + (c.toNat - 48)) 0
    if n ≤ 255 then some n else none
  else none

/-- Dotted-quad IPv4 subset of `net.ParseIP`, in Go's 16-byte
IPv4-in-IPv6 representation; `none` (Go `nil`) otherwise. -/
def parseIPv4 (s : Str) : Option (List Nat) :=
  match (splitOnChar '.' s).mapM parseIPv4Field with
  | some [a, b, c, d] => some ([0, 0, 0, 0, 0, 0, 0, 0, 0, 0, 255, 255] ++ [a, b, c, d])
  | _ => none

/-- Decimal rendering of a byte value. -/
def natByteRepr (n : Nat) : Str :=
  if n < 10 then [Char.ofNat (48 + n)]
  else if n < 100 then [Char.ofNat (48 + n / 10), Char.ofNat (48 + n % 10)]
  else [Char.ofNat (48 + n / 100), Char.ofNat (48 + n / 10 % 10), Char.ofNat (48 + n % 10)]

/-- `net.IP.String` on the IPv4 subset produced by `parseIPv4`. -/
def demoIpToString (bs : List Nat) : Str :=
  match bs with
  | [0, 0, 0, 0, 0, 0, 0, 0, 0, 0, 255, 255, a, b, c, d] =>
    natByteRepr a ++ '.' :: natByteRepr b ++ '.' :: natByteRepr c ++ '.' :: natByteRepr d
  | _ => "?".toList

/-- Fixed-format `YYYY/MM/DD HH:MM:SS;` timestamp reader.  The digits
are concatenated big-endian into one number, an order-embedding of the
chronological order on this fixed-width format — adequate as a stand-in
for `time.ParseInLocation`, whose result the program only ever compares
by order. -/
def demoParseTime (s : Str) : Option Int :=
  match s with
  | [y1, y2, y3, y4, s1, m1, m2, s2, d1, d2, sp, h1, h2, c1, n1, n2, c2, x1, x2, sc] =>
    if s1 = '/' ∧ s2 = '/' ∧ sp = ' ' ∧ c1 = ':' ∧ c2 = ':' ∧ sc = ';' ∧
        [y1, y2, y3, y4, m1, m2, d1, d2, h1, h2, n1, n2, x1, x2].all Char.isDigit then
      some (Int.ofNat
        ([y1, y2, y3, y4, m1, m2, d1, d2, h1, h2, n1, n2, x1, x2].foldl
          (fun acc c => acc * 10 + (c.toNat - 48)) 0))
    else none
  | _ => none

/-- Value of one hex character. -/
def hexCharVal (c : Char) : Option Nat :=
  if '0' ≤ c ∧ c ≤ '9' then some (c.toNat - 48)
  else if 'a' ≤ c ∧ c ≤ 'f' then some (c.toNat - 87)
  else if 'A' ≤ c ∧ c ≤ 'F' then some (c.toNat - 55)
  else none

/-- One `xx` group of a colon-separated MAC literal. -/
def parseMACGroup (s : Str) : Option Nat :=
  match s with
  | [c1, c2] =>
    match hexCharVal c1, hexCharVal c2 with
    | some a, some b => some (16 * a + b)
    | _, _ => none
  | _ => none

/-- Six-group colon-separated subset of `net.ParseMAC`. -/
def demoParseMAC (s : Str) : Option (List Nat) :=
  match (splitOnChar ':' s).mapM parseMACGroup with
  | some l => if l.length = 6 then some l else none
  | none => none

/-- The concrete external-parser instance used by the witnesses. -/
def demoLib : NetLib :=
  { parseIP := parseIPv4, ipToString := demoIpToString,
    parseTime := demoParseTime, parseMAC := demoParseMAC }

/-- A concrete existing record used to instantiate witnesses. -/
def wExisting : LeaseInfo :=
  { ipAddress := parseIPv4 "10.0.0.5".toList, count := 2, startTime := 10, endTime := 50,
    clttTime := 0, macAddress := [0, 80, 194, 170, 187, 204], hostname := "hostA".toList }

/-- A concrete incoming record (strictly later `endTime`). -/
def wIncoming : LeaseInfo :=
  { ipAddress := parseIPv4 "10.0.0.5".toList, count := 1, startTime := 60, endTime := 70,
    clttTime := 0, macAddress := [0, 80, 194, 170, 187, 204], hostname := "hostB".toList }

/-- A concrete one-entry lease map holding `wExisting`. -/
def wMap : List (Str × LeaseInfo) := [("10.0.0.5".toList, wExisting)]

/-- Two observations that tie on `endTime` but differ in `hostname`. -/
def wTieA : LeaseInfo :=
  { ipAddress := none, count := 1, startTime := 0, endTime := 5, clttTime := 0,
    macAddress := [], hostname := "a".toList }

/-- The other half of the tie. -/
def wTieB : LeaseInfo :=
  { ipAddress := none, count := 1, startTime := 0, endTime := 5, clttTime := 0,
    macAddress := [], hostname := "b".toList }

/-- A concrete four-line lease log: two blocks for the same IP. -/
def wLines : List Str :=
  ["lease 10.0.0.5 \x7b".toList, "\x7d".toList, "lease 10.0.0.5 \x7b".toList, "\x7d".toList]

/-- The reconciled lease map of `wLines`. -/
def wM2 : List (Str × LeaseInfo) :=
  [("10.0.0.5".toList, { newLeaseInfo (parseIPv4 "10.0.0.5".toList) with count := 2 })]

/-! ## Order facts about the byte-slice comparison -/

theorem bytesLt_cons_iff {a b : Nat} {as bs : List Nat} :
    bytesCompareLt (a :: as) (b :: bs) = true ↔
      (a < b ∨ (a = b ∧ bytesCompareLt as bs = true)) := by
  show (if a < b then true else if b < a then false else bytesCompareLt as bs) = true ↔ _
  by_cases h1 : a < b
  · simp [h1]
  · by_cases h2 : b < a
    · simp only [h1, if_neg, not_false_iff, h2, if_pos]
      constructor
      · intro hh
        exact absurd hh (by simp)
      · intro hh
        exfalso
        rcases hh with hh | ⟨hh, _⟩
        · exact hh
        · omega
    · have hab : a = b := by omega
      simp [h1, h2, hab]

theorem bytesLt_irrefl : ∀ x, bytesCompareLt x x = false
  | [] => rfl
  | a :: as => by
    show (if a < a then true else if a < a then false else bytesCompareLt as as) = false
    simp [bytesLt_irrefl as]

theorem bytesLt_trans : ∀ x y z, bytesCompareLt x y = true →
    bytesCompareLt y z = true → bytesCompareLt x z = true := by
  intro x
  induction x with
  | nil =>
    intro y z h1 h2
    cases y with
    | nil => simp [bytesCompareLt] at h1
    | cons b bs =>
      cases z with
      | nil => simp [bytesCompareLt] at h2
      | cons c cs => simp [bytesCompareLt]
  | cons a as ih =>
    intro y z h1 h2
    cases y with
    | nil => simp [bytesCompareLt] at h1
    | cons b bs =>
      cases z with
      | nil => simp [bytesCompareLt] at h2
      | cons c cs =>
        rw [bytesLt_cons_iff] at h1 h2 ⊢
        rcases h1 with h1 | ⟨h1e, h1t⟩
        · rcases h2 with h2 | ⟨h2e, _⟩
          · exact Or.inl (by omega)
          · exact Or.inl (by omega)
        · rcases h2 with h2 | ⟨h2e, h2t⟩
          · exact Or.inl (by omega)
          · exact Or.inr ⟨by omega, ih bs cs h1t h2t⟩

theorem bytesLt_total : ∀ x y, bytesCompareLt x y = true ∨
    bytesCompareLt y x = true ∨ x = y := by
  intro x
  induction x with
  | nil =>
    intro y
    cases y with
    | nil => exact Or.inr (Or.inr rfl)
    | cons b bs => exact Or.inl (by simp [bytesCompareLt])
  | cons a as ih =>
    intro y
    cases y with
    | nil => exact Or.inr (Or.inl (by simp [bytesCompareLt]))
    | cons b bs =>
      rcases Nat.lt_trichotomy a b with h | h | h
      · exact Or.inl (bytesLt_cons_iff.mpr (Or.inl h))
      · rcases ih bs with h' | h' | h'
        · exact Or.inl (bytesLt_cons_iff.mpr (Or.inr ⟨h, h'⟩))
        · exact Or.inr (Or.inl (bytesLt_cons_iff.mpr (Or.inr ⟨h.symm, h'⟩)))
        · exact Or.inr (Or.inr (by rw [h, h']))
      · exact Or.inr (Or.inl (bytesLt_cons_iff.mpr (Or.inl h)))

theorem bytesLt_asymm {x y : List Nat} (h : bytesCompareLt x y = true) :
    bytesCompareLt y x = false := by
  cases hyx : bytesCompareLt y x
  · rfl
  · have := bytesLt_trans x y x h hyx
    rw [bytesLt_irrefl] at this
    exact absurd this (by simp)

instance : IsTotal (List Nat) ipLe := by
  constructor
  intro x y
  cases hxy : bytesCompareLt x y
  · exact Or.inr hxy
  · exact Or.inl (bytesLt_asymm hxy)

instance : IsTrans (List Nat) ipLe := by
  constructor
  intro x y z h1 h2
  unfold ipLe at h1 h2 ⊢
  cases hzx : bytesCompareLt z x
  · rfl
  · exfalso
    rcases bytesLt_total x y with h | h | h
    · rw [bytesLt_trans z x y hzx h] at h2
      exact absurd h2 (by simp)
    · rw [h] at h1
      exact absurd h1 (by simp)
    · rw [h] at hzx
      rw [hzx] at h2
      exact absurd h2 (by simp)

/-! ## Association-list map lemmas -/

theorem mapLookup_nil {κ α : Type} [DecidableEq κ] (k : κ) :
    mapLookup ([] : List (κ × α)) k = none := rfl

theorem mapLookup_cons {κ α : Type} [DecidableEq κ] (p : κ × α) (m : List (κ × α)) (k : κ) :
    mapLookup (p :: m) k = if p.1 = k then some p.2 else mapLookup m k := by
  by_cases h : p.1 = k <;> simp [mapLookup, List.find?_cons, h]

theorem mapLookup_update_self {κ α : Type} [DecidableEq κ] (m : List (κ × α)) (k : κ) (v : α) :
    mapLookup (mapUpdate m k v) k = some v := by
  induction m with
  | nil => simp [mapUpdate, mapLookup_cons]
  | cons p rest ih =>
    by_cases h : p.1 = k <;> simp [mapUpdate, h, mapLookup_cons, ih]

theorem mapLookup_update_ne {κ α : Type} [DecidableEq κ] (m : List (κ × α)) (k k' : κ) (v : α)
    (h : k' ≠ k) : mapLookup (mapUpdate m k v) k' = mapLookup m k' := by
  have hkk : ¬ (k = k') := fun hh => h hh.symm
  induction m with
  | nil => simp [mapUpdate, mapLookup_cons, mapLookup_nil, hkk]
  | cons p rest ih =>
    by_cases hp : p.1 = k
    · subst hp
      simp [mapUpdate, mapLookup_cons, hkk]
    · simp [mapUpdate, hp, mapLookup_cons, ih]

theorem mapUpdate_keys_mem {κ α : Type} [DecidableEq κ] (m : List (κ × α)) (k : κ) (v : α)
    (h : k ∈ m.map Prod.fst) :
    (mapUpdate m k v).map Prod.fst = m.map Prod.fst := by
  induction m with
  | nil => simp at h
  | cons p rest ih =>
    by_cases hp : p.1 = k
    · simp [mapUpdate, hp]
    · have h' : k = p.1 ∨ k ∈ rest.map Prod.fst := by
        simpa [List.mem_cons] using h
      rcases h' with h' | h'
      · exact absurd h'.symm hp
      · simp [mapUpdate, hp, ih h']

theorem mapUpdate_keys_not_mem {κ α : Type} [DecidableEq κ] (m : List (κ × α)) (k : κ) (v : α)
    (h : k ∉ m.map Prod.fst) :
    (mapUpdate m k v).map Prod.fst = m.map Prod.fst ++ [k] := by
  induction m with
  | nil => simp [mapUpdate]
  | cons p rest ih =>
    have h1 : ¬ (k = p.1) := by
      intro hh
      exact h (by simp [hh])
    have h2 : k ∉ rest.map Prod.fst := by
      intro hh
      exact h (by simp [hh])
    have hp : ¬ (p.1 = k) := fun hh => h1 hh.symm
    simp [mapUpdate, hp, ih h2]

theorem mem_mapUpdate {κ α : Type} [DecidableEq κ] (m : List (κ × α)) (k : κ) (v : α)
    (q : κ × α) (h : q ∈ mapUpdate m k v) : q = (k, v) ∨ q ∈ m := by
  induction m with
  | nil => simpa [mapUpdate] using h
  | cons p rest ih =>
    by_cases hp : p.1 = k
    · simp only [mapUpdate, hp, if_pos, List.mem_cons] at h
      rcases h with h | h
      · exact Or.inl h
      · exact Or.inr (List.mem_cons_of_mem _ h)
    · simp only [mapUpdate, hp, if_neg, not_false_iff, List.mem_cons] at h
      rcases h with h | h
      · exact Or.inr (by simp [h])
      · rcases ih h with h' | h'
        · exact Or.inl h'
        · exact Or.inr (List.mem_cons_of_mem _ h')

theorem mapLookup_none_not_mem {κ α : Type} [DecidableEq κ] (m : List (κ × α)) (k : κ)
    (h : mapLookup m k = none) : k ∉ m.map Prod.fst := by
  induction m with
  | nil => simp
  | cons p rest ih =>
    rw [mapLookup_cons] at h
    by_cases hp : p.1 = k
    · simp [hp] at h
    · rw [if_neg hp] at h
      have : ¬ (k = p.1) := fun hh => hp hh.symm
      simp [this, ih h]

theorem mapLookup_some_mem {κ α : Type} [DecidableEq κ] (m : List (κ × α)) (k : κ) (v : α)
    (h : mapLookup m k = some v) : (k, v) ∈ m := by
  induction m with
  | nil => simp [mapLookup_nil] at h
  | cons p rest ih =>
    rw [mapLookup_cons] at h
    by_cases hp : p.1 = k
    · rw [if_pos hp] at h
      have hv : p.2 = v := by injection h
      have hpk : p = (k, v) := by
        cases p
        simp only at hp hv
        simp [hp, hv]
      rw [← hpk]
      exact List.mem_cons_self _ _
    · rw [if_neg hp] at h
      exact List.mem_cons_of_mem _ (ih h)

theorem mapLookup_append_single {κ α : Type} [DecidableEq κ]
    (m : List (κ × α)) (k2 : κ) (v : α) (k : κ) :
    mapLookup (m ++ [(k2, v)]) k
      = match mapLookup m k with
        | some w => some w
        | none => if k2 = k then some v else none := by
  induction m with
  | nil => simp [mapLookup_cons, mapLookup_nil]
  | cons p rest ih =>
    by_cases hp : p.1 = k
    · simp [mapLookup_cons, hp]
    · simp only [List.cons_append, mapLookup_cons, hp, if_neg, not_false_iff]
      exact ih

/-! ## The vendor-store build resolves each key to its first accepted line -/

theorem buildOuiStoreAux_cons (inserted : List Str) (store : List (Str × Str))
    (l : Str) (rest : List Str) :
    buildOuiStoreAux inserted store (l :: rest)
      = match parseOuiLine l with
        | none => buildOuiStoreAux inserted store rest
        | some (k, org) =>
          if inserted.contains k then buildOuiStoreAux inserted store rest
          else buildOuiStoreAux (k :: inserted) (store ++ [(k, org)]) rest := rfl

theorem buildOuiStoreAux_lookup (k : Str) :
    ∀ (rest : List Str) (inserted : List Str) (store : List (Str × Str)),
      (∀ k', inserted.contains k' = (mapLookup store k').isSome) →
      mapLookup (buildOuiStoreAux inserted store rest) k
        = match mapLookup store k with
          | some v => some v
          | none => ((rest.filterMap parseOuiLine).find? (fun p => decide (p.1 = k))).map (·.2) := by
  intro rest
  induction rest with
  | nil =>
    intro inserted store hinv
    cases h : mapLookup store k <;> simp [buildOuiStoreAux, h]
  | cons l rest' ih =>
    intro inserted store hinv
    cases hl : parseOuiLine l with
    | none =>
      rw [show buildOuiStoreAux inserted store (l :: rest')
            = buildOuiStoreAux inserted store rest' by simp [buildOuiStoreAux, hl]]
      rw [ih inserted store hinv]
      simp [hl]
    | some p =>
      obtain ⟨k2, org⟩ := p
      cases hc : inserted.contains k2 with
      | true =>
        have hsome : (mapLookup store k2).isSome = true := by rw [← hinv k2, hc]
        have hstep : buildOuiStoreAux inserted store (l :: rest')
            = buildOuiStoreAux inserted store rest' := by
          rw [buildOuiStoreAux_cons, hl]
          exact if_pos hc
        rw [hstep, ih inserted store hinv]
        cases hsk : mapLookup store k with
        | some v => simp
        | none =>
          simp only [List.filterMap_cons, hl, List.find?_cons]
          by_cases hkk : k2 = k
          · exfalso
            rw [hkk, hsk] at hsome
            simp at hsome
          · simp [hkk]
      | false =>
        have hnone : mapLookup store k2 = none := by
          have := hinv k2
          rw [hc] at this
          cases hv : mapLookup store k2
          · rfl
          · rw [hv] at this
            simp at this
        have hinv' : ∀ k', (k2 :: inserted).contains k'
            = (mapLookup (store ++ [(k2, org)]) k').isSome := by
          intro k'
          rw [mapLookup_append_single]
          by_cases hkk : k2 = k'
          · subst hkk
            rw [hnone]
            simp
          · have hbe : (k' == k2) = false := by
              rw [beq_eq_false_iff_ne]
              exact fun hh => hkk hh.symm
            simp only [List.contains_cons, hbe, Bool.false_or]
            rw [hinv k']
            cases hv : mapLookup store k'
            · simp [hkk]
            · simp
        have hstep : buildOuiStoreAux inserted store (l :: rest')
            = buildOuiStoreAux (k2 :: inserted) (store ++ [(k2, org)]) rest' := by
          rw [buildOuiStoreAux_cons, hl]
          exact if_neg (by rw [hc]; exact Bool.false_ne_true)
        rw [hstep, ih (k2 :: inserted) (store ++ [(k2, org)]) hinv']
        rw [mapLookup_append_single]
        cases hsk : mapLookup store k with
        | some v => simp
        | none =>
          simp only [List.filterMap_cons, hl, List.find?_cons]
          by_cases hkk : k2 = k
          · simp [hkk]
          · simp [hkk]

/-! ## Reconciler fold lemmas (single-IP view) -/

theorem mergeLease_count (e a : LeaseInfo) :
    (mergeLease e a).count = a.count + e.count := by
  unfold mergeLease
  split <;> rfl

theorem leaseSel_merge (e a : LeaseInfo) :
    leaseSel (mergeLease e a) = leaseSel (if e.endTime < a.endTime then a else e) := by
  unfold mergeLease
  split <;> simp [leaseSel]

theorem leaseSel_ext (x y : LeaseInfo) (hsel : leaseSel x = leaseSel y)
    (hc : x.count = y.count) : x = y := by
  cases x
  cases y
  simp only [leaseSel, Prod.mk.injEq] at hsel
  obtain ⟨h1, h2, h3, h4, h5, h6⟩ := hsel
  simp_all

theorem foldl_reconcileObs_some (l : List LeaseInfo) :
    ∀ e, l.foldl reconcileObs (some e) = some (foldMerge e l) := by
  induction l with
  | nil =>
    intro e
    rfl
  | cons a l ih =>
    intro e
    show l.foldl reconcileObs (reconcileObs (some e) a) = _
    rw [show reconcileObs (some e) a = some (mergeLease e a) from rfl, ih (mergeLease e a)]
    rfl

theorem reconcileOne_cons (e : LeaseInfo) (l : List LeaseInfo) :
    reconcileOne (e :: l) = some (foldMerge e l) := by
  unfold reconcileOne
  show l.foldl reconcileObs (reconcileObs none e) = _
  rw [show reconcileObs none e = some e from rfl]
  exact foldl_reconcileObs_some l e

theorem foldMerge_count (l : List LeaseInfo) :
    ∀ e, (foldMerge e l).count = e.count + sumCounts l := by
  induction l with
  | nil =>
    intro e
    simp [foldMerge, sumCounts]
  | cons a l ih =>
    intro e
    show (foldMerge (mergeLease e a) l).count = _
    rw [ih (mergeLease e a), mergeLease_count]
    simp only [sumCounts, List.map_cons, List.sum_cons]
    omega

theorem pickLease_cons (e a : LeaseInfo) (l : List LeaseInfo) :
    pickLease e (a :: l) = pickLease (if e.endTime < a.endTime then a else e) l := rfl

theorem leaseSel_pickLease_congr (l : List LeaseInfo) :
    ∀ x y, leaseSel x = leaseSel y →
      leaseSel (pickLease x l) = leaseSel (pickLease y l) := by
  induction l with
  | nil =>
    intro x y h
    exact h
  | cons a l ih =>
    intro x y h
    have he : x.endTime = y.endTime := by
      have := congrArg (fun t => t.2.2.1) h
      simpa [leaseSel] using this
    rw [pickLease_cons, pickLease_cons]
    by_cases hc : x.endTime < a.endTime
    · rw [if_pos hc, if_pos (he ▸ hc)]
    · rw [if_neg hc, if_neg (he ▸ hc)]
      exact ih x y h

theorem leaseSel_foldMerge (l : List LeaseInfo) :
    ∀ e, leaseSel (foldMerge e l) = leaseSel (pickLease e l) := by
  induction l with
  | nil =>
    intro e
    rfl
  | cons a l ih =>
    intro e
    show leaseSel (foldMerge (mergeLease e a) l) = _
    rw [ih (mergeLease e a), pickLease_cons]
    exact leaseSel_pickLease_congr l (mergeLease e a) _ (leaseSel_merge e a)

theorem pickLease_mem (l : List LeaseInfo) :
    ∀ e, pickLease e l ∈ e :: l := by
  induction l with
  | nil =>
    intro e
    exact List.mem_cons_self _ _
  | cons a l ih =>
    intro e
    rw [pickLease_cons]
    by_cases hc : e.endTime < a.endTime
    · rw [if_pos hc]
      exact List.mem_cons_of_mem e (ih a)
    · rw [if_neg hc]
      rcases List.mem_cons.mp (ih e) with h | h
      · rw [h]
        exact List.mem_cons_self _ _
      · exact List.mem_cons_of_mem e (List.mem_cons_of_mem a h)

theorem pickLease_le (l : List LeaseInfo) :
    ∀ e, ∀ a ∈ e :: l, a.endTime ≤ (pickLease e l).endTime := by
  induction l with
  | nil =>
    intro e a ha
    rcases List.mem_cons.mp ha with h | h
    · rw [h]
      exact le_refl _
    · simp at h
  | cons b l ih =>
    intro e a ha
    rw [pickLease_cons]
    by_cases hc : e.endTime < b.endTime
    · rw [if_pos hc]
      rcases List.mem_cons.mp ha with h | h
      · have hb := ih b b (List.mem_cons_self _ _)
        rw [h]
        omega
      · exact ih b a h
    · rw [if_neg hc]
      rcases List.mem_cons.mp ha with h | h
      · rw [h]
        exact ih e e (List.mem_cons_self _ _)
      · rcases List.mem_cons.mp h with h' | h'
        · have hee := ih e e (List.mem_cons_self _ _)
          rw [h']
          omega
        · exact ih e a (List.mem_cons_of_mem e h')

theorem maxEnd_cons (e a : LeaseInfo) (l : List LeaseInfo) :
    maxEnd (e :: a :: l) = maxEnd ((if e.endTime < a.endTime then a else e) :: l) := by
  show l.foldl (fun m x => max m x.endTime) (max e.endTime a.endTime)
    = l.foldl (fun m x => max m x.endTime) (if e.endTime < a.endTime then a else e).endTime
  congr 1
  split <;> omega

theorem pickLease_endTime (l : List LeaseInfo) :
    ∀ e, (pickLease e l).endTime = maxEnd (e :: l) := by
  induction l with
  | nil =>
    intro e
    rfl
  | cons a l ih =>
    intro e
    rw [pickLease_cons, ih _, ← maxEnd_cons]

theorem maxEnd_attained (e : LeaseInfo) (l : List LeaseInfo) :
    ∃ a ∈ e :: l, a.endTime = maxEnd (e :: l) :=
  ⟨pickLease e l, pickLease_mem l e, pickLease_endTime l e⟩

theorem maxEnd_is_ub (e : LeaseInfo) (l : List LeaseInfo) :
    ∀ a ∈ e :: l, a.endTime ≤ maxEnd (e :: l) := by
  intro a ha
  rw [← pickLease_endTime l e]
  exact pickLease_le l e a ha

theorem maxEnd_perm {l l' : List LeaseInfo} (h : l.Perm l') (hne : l ≠ []) :
    maxEnd l = maxEnd l' := by
  rcases l with _ | ⟨e, t⟩
  · exact absurd rfl hne
  rcases l' with _ | ⟨e', t'⟩
  · have hlen := h.length_eq
    simp at hlen
  obtain ⟨a, ha, hae⟩ := maxEnd_attained e t
  obtain ⟨a', ha', hae'⟩ := maxEnd_attained e' t'
  have h1 : maxEnd (e :: t) ≤ maxEnd (e' :: t') := by
    rw [← hae]
    exact maxEnd_is_ub e' t' a (h.mem_iff.mp ha)
  have h2 : maxEnd (e' :: t') ≤ maxEnd (e :: t) := by
    rw [← hae']
    exact maxEnd_is_ub e t a' (h.mem_iff.mpr ha')
  omega

theorem reconcileOne_unique_max (l : List LeaseInfo) (hne : l ≠ [])
    (huniq : (l.filter (fun a => decide (a.endTime = maxEnd l))).length = 1)
    (u : LeaseInfo) (hu : u ∈ l) (hue : u.endTime = maxEnd l) :
    reconcileOne l = some { u with count := sumCounts l } := by
  rcases l with _ | ⟨e, t⟩
  · exact absurd rfl hne
  have hpm : pickLease e t ∈ e :: t := pickLease_mem t e
  have hpe : (pickLease e t).endTime = maxEnd (e :: t) := pickLease_endTime t e
  have hpf : pickLease e t
      ∈ (e :: t).filter (fun a => decide (a.endTime = maxEnd (e :: t))) :=
    List.mem_filter.mpr ⟨hpm, by simp [hpe]⟩
  have huf : u ∈ (e :: t).filter (fun a => decide (a.endTime = maxEnd (e :: t))) :=
    List.mem_filter.mpr ⟨hu, by simp [hue]⟩
  have hpu : pickLease e t = u := by
    rcases hfl : (e :: t).filter (fun a => decide (a.endTime = maxEnd (e :: t)))
        with _ | ⟨x, xs⟩
    · rw [hfl] at hpf
      simp at hpf
    · rw [hfl] at huniq hpf huf
      simp only [List.length_cons] at huniq
      have hxs : xs = [] := List.eq_nil_of_length_eq_zero (by omega)
      subst hxs
      simp only [List.mem_singleton] at hpf huf
      rw [hpf, huf]
  rw [reconcileOne_cons]
  congr 1
  apply leaseSel_ext
  · rw [leaseSel_foldMerge, hpu]
    rfl
  · rw [foldMerge_count]
    simp [sumCounts]

/-! ## Parser step characterizations -/

theorem hasPrefix_close_shape {t : Str} (hc : hasPrefixStr t "\x7d".toList = true) :
    ∃ t', t = '}' :: t' := by
  cases t with
  | nil => simp [hasPrefixStr, List.isPrefixOf] at hc
  | cons c t' =>
    refine ⟨t', ?_⟩
    simp [hasPrefixStr, List.isPrefixOf] at hc
    rw [← hc]

theorem stepLine_outside_nonheader (lib : NetLib) (st : ParseState) (line : Str)
    (hw : st.withinLease = false)
    (hh : (hasPrefixStr (trimStr line) "lease ".toList
            && hasSuffixStr (trimStr line) " \x7b".toList) = false) :
    stepLine lib st line = .ok st := by
  simp only [stepLine]
  rw [if_pos hw, if_neg (by rw [hh]; exact fun x => Bool.noConfusion x)]

theorem stepLine_header_open (lib : NetLib) (st : ParseState) (line ipLit : Str)
    (hw : st.withinLease = false)
    (hh : (hasPrefixStr (trimStr line) "lease ".toList
            && hasSuffixStr (trimStr line) " \x7b".toList) = true)
    (ht : (splitOnChar ' ' (trimStr line)).get? 1 = some ipLit) :
    stepLine lib st line
      = .ok { st with currentIP := lib.parseIP ipLit,
                      currentLease := some (newLeaseInfo (lib.parseIP ipLit)),
                      withinLease := true } := by
  simp only [stepLine]
  rw [if_pos hw, if_pos hh, ht]

theorem stepLine_header_none (lib : NetLib) (st : ParseState) (line : Str)
    (hw : st.withinLease = false)
    (hh : (hasPrefixStr (trimStr line) "lease ".toList
            && hasSuffixStr (trimStr line) " \x7b".toList) = true)
    (ht : (splitOnChar ' ' (trimStr line)).get? 1 = none) :
    stepLine lib st line = .error "panic: index out of range".toList := by
  simp only [stepLine]
  rw [if_pos hw, if_pos hh, ht]

theorem stepLine_within_nonclose (lib : NetLib) (st : ParseState) (line : Str)
    (cl : LeaseInfo) (hw : st.withinLease = true) (hcl : st.currentLease = some cl)
    (hnc : hasPrefixStr (trimStr line) "\x7d".toList = false) :
    (∃ e, stepLine lib st line = .error e)
    ∨ ∃ cl', stepLine lib st line = .ok { st with currentLease := some cl' }
        ∧ cl'.count = cl.count := by
  have hnw : ¬ (st.withinLease = false) := by
    rw [hw]
    exact fun hh => Bool.noConfusion hh
  simp only [stepLine]
  rw [if_neg hnw]
  by_cases h1 : hasPrefixStr (trimStr line) "starts".toList = true
  · rw [if_pos h1, hcl]
    cases hft : fieldTime lib (trimStr line) with
    | error e => exact Or.inl ⟨e, rfl⟩
    | ok t => exact Or.inr ⟨{ cl with startTime := t }, rfl, rfl⟩
  · rw [if_neg h1]
    by_cases h2 : hasPrefixStr (trimStr line) "ends".toList = true
    · rw [if_pos h2, hcl]
      cases hft : fieldTime lib (trimStr line) with
      | error e => exact Or.inl ⟨e, rfl⟩
      | ok t => exact Or.inr ⟨{ cl with endTime := t }, rfl, rfl⟩
    · rw [if_neg h2]
      by_cases h3 : hasPrefixStr (trimStr line) "cltt".toList = true
      · rw [if_pos h3, hcl]
        cases hft : fieldTime lib (trimStr line) with
        | error e => exact Or.inl ⟨e, rfl⟩
        | ok t => exact Or.inr ⟨{ cl with clttTime := t }, rfl, rfl⟩
      · rw [if_neg h3]
        by_cases h4 : hasPrefixStr (trimStr line) "hardware ethernet ".toList = true
        · rw [if_pos h4, hcl]
          dsimp only
          cases hg2 : (splitOnChar ' ' (trimStr line)).get? 2 with
          | none => exact Or.inl ⟨_, rfl⟩
          | some tok =>
            dsimp only
            cases hg0 : (splitOnChar ';' tok).get? 0 with
            | none => exact Or.inl ⟨_, rfl⟩
            | some macStr =>
              dsimp only
              cases hm : lib.parseMAC macStr with
              | none => exact Or.inl ⟨_, rfl⟩
              | some mac => exact Or.inr ⟨{ cl with macAddress := mac }, rfl, rfl⟩
        · rw [if_neg h4]
          by_cases h5 : hasPrefixStr (trimStr line) "client-hostname ".toList = true
          · rw [if_pos h5, hcl]
            dsimp only
            cases hg1 : (splitOnChar '"' (trimStr line)).get? 1 with
            | none => exact Or.inl ⟨_, rfl⟩
            | some hst => exact Or.inr ⟨{ cl with hostname := hst }, rfl, rfl⟩
          · rw [if_neg h5]
            rw [if_neg (by rw [hnc]; exact fun x => Bool.noConfusion x)]
            refine Or.inr ⟨cl, ?_, rfl⟩
            have hst : { st with currentLease := some cl } = st := by
              cases st
              simp_all
            rw [hst]

theorem stepLine_close (lib : NetLib) (st : ParseState) (line : Str) (cl : LeaseInfo)
    (hw : st.withinLease = true) (hcl : st.currentLease = some cl)
    (hc : hasPrefixStr (trimStr line) "\x7d".toList = true) :
    stepLine lib st line
      = .ok { st with withinLease := false, currentLease := none,
                      leaseMap := reconcileClose st.leaseMap
                        (ipKeyString lib st.currentIP) cl } := by
  obtain ⟨t', ht⟩ := hasPrefix_close_shape hc
  have hnw : ¬ (st.withinLease = false) := by
    rw [hw]
    exact fun hh => Bool.noConfusion hh
  have h1 : hasPrefixStr (trimStr line) "starts".toList = false := by
    rw [ht]
    rfl
  have h2 : hasPrefixStr (trimStr line) "ends".toList = false := by
    rw [ht]
    rfl
  have h3 : hasPrefixStr (trimStr line) "cltt".toList = false := by
    rw [ht]
    rfl
  have h4 : hasPrefixStr (trimStr line) "hardware ethernet ".toList = false := by
    rw [ht]
    rfl
  have h5 : hasPrefixStr (trimStr line) "client-hostname ".toList = false := by
    rw [ht]
    rfl
  simp only [stepLine]
  rw [if_neg hnw,
      if_neg (by rw [h1]; exact fun x => Bool.noConfusion x),
      if_neg (by rw [h2]; exact fun x => Bool.noConfusion x),
      if_neg (by rw [h3]; exact fun x => Bool.noConfusion x),
      if_neg (by rw [h4]; exact fun x => Bool.noConfusion x),
      if_neg (by rw [h5]; exact fun x => Bool.noConfusion x),
      if_pos hc, hcl]

/-! ## Reconcile-close bookkeeping -/

theorem recCount_reconcileClose_self (m : List (Str × LeaseInfo)) (k : Str)
    (v : LeaseInfo) :
    recCount (reconcileClose m k v) k = recCount m k + v.count := by
  unfold reconcileClose recCount
  cases hl : mapLookup m k with
  | none =>
    rw [mapLookup_update_self]
    dsimp only
    omega
  | some ex =>
    rw [mapLookup_update_self]
    dsimp only
    rw [mergeLease_count]
    omega

theorem recCount_reconcileClose_ne (m : List (Str × LeaseInfo)) (k k' : Str)
    (v : LeaseInfo) (h : k' ≠ k) :
    recCount (reconcileClose m k v) k' = recCount m k' := by
  unfold reconcileClose recCount
  cases hl : mapLookup m k with
  | none => rw [mapLookup_update_ne m k k' v h]
  | some ex => rw [mapLookup_update_ne m k k' _ h]

theorem reconcileClose_nodup (m : List (Str × LeaseInfo)) (k : Str) (v : LeaseInfo)
    (h : (m.map Prod.fst).Nodup) :
    ((reconcileClose m k v).map Prod.fst).Nodup := by
  unfold reconcileClose
  cases hl : mapLookup m k with
  | some ex =>
    have hk : k ∈ m.map Prod.fst :=
      List.mem_map.mpr ⟨(k, ex), mapLookup_some_mem m k ex hl, rfl⟩
    rw [mapUpdate_keys_mem m k _ hk]
    exact h
  | none =>
    have hk := mapLookup_none_not_mem m k hl
    rw [mapUpdate_keys_not_mem m k v hk]
    simp [List.nodup_append, h, hk]

theorem reconcileClose_counts (m : List (Str × LeaseInfo)) (k : Str) (v : LeaseInfo)
    (hm : ∀ p ∈ m, 1 ≤ p.2.count) (hv : 1 ≤ v.count) :
    ∀ p ∈ reconcileClose m k v, 1 ≤ p.2.count := by
  unfold reconcileClose
  cases hl : mapLookup m k with
  | none =>
    intro p hp
    rcases mem_mapUpdate m k v p hp with h | h
    · rw [h]
      exact hv
    · exact hm p h
  | some ex =>
    intro p hp
    rcases mem_mapUpdate m k (mergeLease ex v) p hp with h | h
    · rw [h]
      show 1 ≤ (mergeLease ex v).count
      rw [mergeLease_count]
      omega
    · exact hm p h

theorem recCount_pos_iff (m : List (Str × LeaseInfo)) (k : Str)
    (hm : ∀ p ∈ m, 1 ≤ p.2.count) :
    mapLookup m k ≠ none ↔ 1 ≤ recCount m k := by
  unfold recCount
  cases hl : mapLookup m k with
  | none =>
    dsimp only
    constructor
    · intro hne
      exact absurd rfl hne
    · intro hle
      exact absurd hle (by omega)
  | some r =>
    dsimp only
    have hmem : (k, r) ∈ m := mapLookup_some_mem m k r hl
    have hc := hm (k, r) hmem
    constructor
    · intro _
      exact hc
    · intro _ hno
      exact Option.noConfusion hno

/-! ## The scanner loop against the spec-side block keys -/

theorem blockKeysAux_cons (lib : NetLib) (within : Bool) (cur : Option (List Nat))
    (l : Str) (rest : List Str) :
    blockKeysAux lib within cur (l :: rest)
      = if within then
          (if hasPrefixStr (trimStr l) "\x7d".toList then
            ipKeyString lib cur :: blockKeysAux lib false cur rest
          else blockKeysAux lib true cur rest)
        else if hasPrefixStr (trimStr l) "lease ".toList
            && hasSuffixStr (trimStr l) " \x7b".toList then
          blockKeysAux lib true (lib.parseIP ((splitOnChar ' ' (trimStr l)).getD 1 [])) rest
        else blockKeysAux lib false cur rest := rfl

theorem runLines_cons (lib : NetLib) (st : ParseState) (l : Str) (rest : List Str) :
    runLines lib st (l :: rest)
      = match stepLine lib st l with
        | .error e => .error e
        | .ok st' => runLines lib st' rest := rfl

theorem runLines_spec (lib : NetLib) :
    ∀ (lines : List Str) (st : ParseState), StInv st →
      ∀ st', runLines lib st lines = .ok st' →
        StInv st'
        ∧ ∀ k, recCount st'.leaseMap k
            = recCount st.leaseMap k
              + (blockKeysAux lib st.withinLease st.currentIP lines).count k := by
  intro lines
  induction lines with
  | nil =>
    intro st hinv st' hrun
    have hrun' : (Except.ok st : Except Str ParseState) = .ok st' := hrun
    injection hrun' with hst
    subst hst
    exact ⟨hinv, fun k => by simp [blockKeysAux]⟩
  | cons l rest ih =>
    intro st hinv st' hrun
    rw [runLines_cons] at hrun
    cases hstep : stepLine lib st l with
    | error e =>
      rw [hstep] at hrun
      exact Except.noConfusion hrun
    | ok st1 =>
      rw [hstep] at hrun
      cases hw : st.withinLease with
      | false =>
        cases hh : (hasPrefixStr (trimStr l) "lease ".toList
            && hasSuffixStr (trimStr l) " \x7b".toList) with
        | false =>
          have hok := stepLine_outside_nonheader lib st l hw hh
          rw [hok] at hstep
          have hst1 : st1 = st := by
            injection hstep with h
            exact h.symm
          subst st1
          obtain ⟨hinv', hcount⟩ := ih st hinv st' hrun
          refine ⟨hinv', fun k => ?_⟩
          rw [hcount k]
          show recCount st.leaseMap k
              + (blockKeysAux lib st.withinLease st.currentIP rest).count k
            = recCount st.leaseMap k
              + (blockKeysAux lib false st.currentIP (l :: rest)).count k
          have hbk : blockKeysAux lib false st.currentIP (l :: rest)
              = blockKeysAux lib false st.currentIP rest := by
            rw [blockKeysAux_cons]
            rw [if_neg (fun hh => Bool.noConfusion hh)]
            rw [if_neg (by rw [hh]; exact fun x => Bool.noConfusion x)]
          rw [hbk, hw]
        | true =>
          cases hg : (splitOnChar ' ' (trimStr l)).get? 1 with
          | none =>
            have hok := stepLine_header_none lib st l hw hh hg
            rw [hok] at hstep
            exact Except.noConfusion hstep
          | some ipLit =>
            have hok := stepLine_header_open lib st l ipLit hw hh hg
            rw [hok] at hstep
            have hst1 : st1 = { st with
                                  currentIP := lib.parseIP ipLit,
                                  currentLease := some (newLeaseInfo (lib.parseIP ipLit)),
                                  withinLease := true } := by
              injection hstep with h
              exact h.symm
            subst hst1
            have hinv1 : StInv { st with
                                  currentIP := lib.parseIP ipLit,
                                  currentLease := some (newLeaseInfo (lib.parseIP ipLit)),
                                  withinLease := true } := by
              refine ⟨hinv.1, hinv.2.1, ?_, ?_⟩
              · intro _
                exact ⟨newLeaseInfo (lib.parseIP ipLit), rfl, rfl⟩
              · intro hfalse
                exact absurd hfalse (by simp)
            obtain ⟨hinv', hcount⟩ := ih _ hinv1 st' hrun
            refine ⟨hinv', fun k => ?_⟩
            rw [hcount k]
            show recCount st.leaseMap k
                + (blockKeysAux lib true (lib.parseIP ipLit) rest).count k
              = recCount st.leaseMap k
                + (blockKeysAux lib false st.currentIP (l :: rest)).count k
            have hgd : (splitOnChar ' ' (trimStr l)).getD 1 [] = ipLit := by
              simp [List.getD_eq_getElem?_getD, ← List.get?_eq_getElem?, hg]
            have hbk : blockKeysAux lib false st.currentIP (l :: rest)
                = blockKeysAux lib true (lib.parseIP ipLit) rest := by
              rw [blockKeysAux_cons]
              rw [if_neg (fun hh => Bool.noConfusion hh)]
              rw [if_pos hh, hgd]
            rw [hbk]
      | true =>
        obtain ⟨cl, hcl, hclc⟩ := hinv.2.2.1 hw
        cases hc : hasPrefixStr (trimStr l) "\x7d".toList with
        | false =>
          rcases stepLine_within_nonclose lib st l cl hw hcl hc with ⟨e, he⟩ | ⟨cl', hok, hcc⟩
          · rw [he] at hstep
            exact Except.noConfusion hstep
          · rw [hok] at hstep
            have hst1 : st1 = { st with currentLease := some cl' } := by
              injection hstep with h
              exact h.symm
            subst hst1
            have hinv1 : StInv { st with currentLease := some cl' } := by
              refine ⟨hinv.1, hinv.2.1, ?_, ?_⟩
              · intro _
                exact ⟨cl', rfl, by rw [hcc, hclc]⟩
              · intro hfalse
                rw [hw] at hfalse
                exact Bool.noConfusion hfalse
            obtain ⟨hinv', hcount⟩ := ih _ hinv1 st' hrun
            refine ⟨hinv', fun k => ?_⟩
            rw [hcount k]
            show recCount st.leaseMap k
                + (blockKeysAux lib st.withinLease st.currentIP rest).count k
              = recCount st.leaseMap k
                + (blockKeysAux lib true st.currentIP (l :: rest)).count k
            have hbk : blockKeysAux lib true st.currentIP (l :: rest)
                = blockKeysAux lib true st.currentIP rest := by
              rw [blockKeysAux_cons, if_pos rfl]
              rw [if_neg (by rw [hc]; exact fun x => Bool.noConfusion x)]
            rw [hbk, hw]
        | true =>
          have hok := stepLine_close lib st l cl hw hcl hc
          rw [hok] at hstep
          have hst1 : st1 = { st with
                                withinLease := false, currentLease := none,
                                leaseMap := reconcileClose st.leaseMap
                                  (ipKeyString lib st.currentIP) cl } := by
            injection hstep with h
            exact h.symm
          subst hst1
          have hinv1 : StInv { st with
                                withinLease := false, currentLease := none,
                                leaseMap := reconcileClose st.leaseMap
                                  (ipKeyString lib st.currentIP) cl } := by
            refine ⟨?_, ?_, ?_, fun _ => rfl⟩
            · exact reconcileClose_nodup _ _ _ hinv.1
            · exact reconcileClose_counts _ _ _ hinv.2.1 (by rw [hclc])
            · intro htrue
              exact Bool.noConfusion htrue
          obtain ⟨hinv', hcount⟩ := ih _ hinv1 st' hrun
          refine ⟨hinv', fun k => ?_⟩
          rw [hcount k]
          show recCount (reconcileClose st.leaseMap (ipKeyString lib st.currentIP) cl) k
              + (blockKeysAux lib false st.currentIP rest).count k
            = recCount st.leaseMap k
              + (blockKeysAux lib true st.currentIP (l :: rest)).count k
          have hbk : blockKeysAux lib true st.currentIP (l :: rest)
              = ipKeyString lib st.currentIP :: blockKeysAux lib false st.currentIP rest := by
            rw [blockKeysAux_cons, if_pos rfl, if_pos hc]
          rw [hbk, List.count_cons]
          by_cases hkk : k = ipKeyString lib st.currentIP
          · subst hkk
            rw [recCount_reconcileClose_self, hclc]
            simp
            omega
          · rw [recCount_reconcileClose_ne _ _ _ _ hkk]
            have hbe : (ipKeyString lib st.currentIP == k) = false := by
              rw [beq_eq_false_iff_ne]
              exact fun hh => hkk hh.symm
            rw [hbe]
            simp

/-! ## Claim theorems -/

/-- C1: when a block closes for an IP already present in the reconciler's
map, the merged record's count is the sum of the incoming and existing
counts; the incoming observation replaces the existing record — keeping
only the summed count from it — exactly when its `endTime` is strictly
later, otherwise (equal `endTime` included) the existing record is kept
with only its count updated; the close step stores this merge at the
IP's key. -/
theorem c1_reconciler_merge (existing incoming : LeaseInfo)
    (m : List (Str × LeaseInfo)) (k : Str)
    (hm : mapLookup m k = some existing) :
    (mergeLease existing incoming).count = incoming.count + existing.count
    ∧ (existing.endTime < incoming.endTime →
        mergeLease existing incoming
          = { incoming with count := incoming.count + existing.count })
    ∧ (¬ existing.endTime < incoming.endTime →
        mergeLease existing incoming
          = { existing with count := incoming.count + existing.count })
    ∧ (existing.endTime = incoming.endTime →
        mergeLease existing incoming
          = { existing with count := incoming.count + existing.count })
    ∧ reconcileClose m k incoming = mapUpdate m k (mergeLease existing incoming) := by
  refine ⟨?_, ?_, ?_, ?_, ?_⟩
  · unfold mergeLease
    split <;> rfl
  · intro h
    simp [mergeLease, h]
  · intro h
    simp [mergeLease, h]
  · intro h
    simp [mergeLease, h]
  · unfold reconcileClose
    rw [hm]

/-- Witness for C1 at concrete records: the strictly-later branch and
the map update. -/
theorem c1_reconciler_merge_witness :
    mergeLease wExisting wIncoming
        = { wIncoming with count := wIncoming.count + wExisting.count }
    ∧ reconcileClose wMap "10.0.0.5".toList wIncoming
        = mapUpdate wMap "10.0.0.5".toList (mergeLease wExisting wIncoming) :=
  ⟨(c1_reconciler_merge wExisting wIncoming wMap "10.0.0.5".toList (by decide)).2.1
      (by decide),
   (c1_reconciler_merge wExisting wIncoming wMap "10.0.0.5".toList (by decide)).2.2.2.2⟩

/-- C2: for every lease log on which the parser run succeeds, the
reconciled map holds exactly one record per distinct IP key (the keys
are free of duplicates, and a key is present exactly when it is the key
of some `lease <ip> {` header with matching closing `}`), and the
record's count equals the number of such closed blocks for that key —
a multiplicity, hence independent of the order of the blocks. -/
theorem c2_reconciled_counts (lib : NetLib) (lines : List Str)
    (m : List (Str × LeaseInfo)) (h : readLeasesFile lib lines = .ok m) :
    (m.map Prod.fst).Nodup
    ∧ ∀ k, recCount m k = (closedBlockKeys lib lines).count k
        ∧ (mapLookup m k ≠ none ↔ k ∈ closedBlockKeys lib lines) := by
  unfold readLeasesFile at h
  cases hr : runLines lib initState lines with
  | error e =>
    rw [hr] at h
    exact Except.noConfusion h
  | ok stf =>
    rw [hr] at h
    have hm : stf.leaseMap = m := by
      injection h
    subst hm
    have hinv0 : StInv initState := by
      refine ⟨by simp [initState], ?_, ?_, fun _ => rfl⟩
      · intro p hp
        simp [initState] at hp
      · intro htrue
        exact absurd htrue (by simp [initState])
    obtain ⟨hinv', hcount⟩ := runLines_spec lib lines initState hinv0 stf hr
    refine ⟨hinv'.1, fun k => ?_⟩
    have h1 : recCount stf.leaseMap k = (closedBlockKeys lib lines).count k := by
      have h2 := hcount k
      rw [show recCount initState.leaseMap k = 0 from rfl] at h2
      rw [show blockKeysAux lib initState.withinLease initState.currentIP lines
            = closedBlockKeys lib lines from rfl] at h2
      omega
    refine ⟨h1, ?_⟩
    rw [recCount_pos_iff stf.leaseMap k hinv'.2.1, h1]
    constructor
    · intro hh
      exact List.count_pos_iff.mp (by omega)
    · intro hh
      have := List.count_pos_iff.mpr hh
      omega

/-- Witness for C2 on a concrete four-line log with two blocks for one
IP: the reconciled count equals the block multiplicity and the key is
present. -/
theorem c2_reconciled_counts_witness :
    recCount wM2 "10.0.0.5".toList = (closedBlockKeys demoLib wLines).count "10.0.0.5".toList
    ∧ (mapLookup wM2 "10.0.0.5".toList ≠ none
        ↔ "10.0.0.5".toList ∈ closedBlockKeys demoLib wLines) :=
  (c2_reconciled_counts demoLib wLines wM2 (by decide)).2 "10.0.0.5".toList

/-- C3 counterexample: two observations for one IP that tie on
`endTime` but differ in `hostname`; the two orders of feeding them to
the reconciler are permutations of each other yet produce different
final records, refuting permutation-invariance of the field selection
as claimed. -/
theorem c3_counterexample :
    ([wTieA, wTieB]).Perm [wTieB, wTieA]
    ∧ reconcileOne [wTieA, wTieB] ≠ reconcileOne [wTieB, wTieA] := by
  constructor
  · exact List.Perm.swap wTieB wTieA []
  · decide

/-- C3 (amended): reconciliation is permutation-invariant in its field
selection provided the observation attaining the latest `endTime` is
unique; the final record then carries the fields of that block — the
code's record fields being `ipAddress`, `startTime`, `endTime`,
`clttTime`, `macAddress` and `hostname` (there is no abandoned flag in
the source's record) — with its count replaced by the total count.
With ties the first-seen maximal block wins, which depends on the
order. -/
theorem c3_amended_reconcile_perm (l l' : List LeaseInfo) (hne : l ≠ [])
    (hperm : l.Perm l')
    (huniq : (l.filter (fun a => decide (a.endTime = maxEnd l))).length = 1) :
    reconcileOne l = reconcileOne l'
    ∧ ∃ a ∈ l, a.endTime = maxEnd l
        ∧ reconcileOne l = some { a with count := sumCounts l } := by
  have hne' : l' ≠ [] := by
    intro hh
    subst hh
    exact hne hperm.eq_nil
  have hmax : maxEnd l = maxEnd l' := maxEnd_perm hperm hne
  rcases l with _ | ⟨e, t⟩
  · exact absurd rfl hne
  have hpm : pickLease e t ∈ e :: t := pickLease_mem t e
  have hpe : (pickLease e t).endTime = maxEnd (e :: t) := pickLease_endTime t e
  have h1 : reconcileOne (e :: t)
      = some { pickLease e t with count := sumCounts (e :: t) } :=
    reconcileOne_unique_max _ (by simp) huniq (pickLease e t) hpm hpe
  have huniq' : (l'.filter (fun a => decide (a.endTime = maxEnd l'))).length = 1 := by
    rw [← hmax, ← (hperm.filter _).length_eq]
    exact huniq
  have h2 : reconcileOne l' = some { pickLease e t with count := sumCounts l' } :=
    reconcileOne_unique_max l' hne' huniq' (pickLease e t) (hperm.mem_iff.mp hpm)
      (by rw [← hmax]; exact hpe)
  have hsum : sumCounts (e :: t) = sumCounts l' := by
    unfold sumCounts
    exact (hperm.map (·.count)).sum_eq
  refine ⟨?_, ⟨pickLease e t, hpm, hpe, h1⟩⟩
  rw [h1, h2, hsum]

/-- Witness for C3 (amended) on two concrete observations with distinct
end times, in both orders. -/
theorem c3_amended_reconcile_perm_witness :
    reconcileOne [wExisting, wIncoming] = reconcileOne [wIncoming, wExisting]
    ∧ ∃ a ∈ [wExisting, wIncoming], a.endTime = maxEnd [wExisting, wIncoming]
        ∧ reconcileOne [wExisting, wIncoming]
            = some { a with count := sumCounts [wExisting, wIncoming] } :=
  c3_amended_reconcile_perm [wExisting, wIncoming] [wIncoming, wExisting]
    (by decide) (List.Perm.swap wIncoming wExisting []) (by decide)

/-- C4: the lease state classifier is a pure function of `(abandoned,
startTime, endTime, now)`; it yields `Abandoned` exactly when the flag
is set (overriding temporal state), otherwise `Future` exactly when
`now` is strictly before `startTime`, `Current` exactly when `now` lies
in the inclusive interval `[startTime, endTime]`, and `Past` exactly in
the remaining case, where `now` is strictly after `endTime`. -/
theorem c4_classifier_cases (a : Bool) (s e n : Int) :
    (classifyLease a s e n = .Abandoned ↔ a = true)
    ∧ (classifyLease a s e n = .Future ↔ (a = false ∧ n < s))
    ∧ (classifyLease a s e n = .Current ↔ (a = false ∧ s ≤ n ∧ n ≤ e))
    ∧ (classifyLease a s e n = .Past ↔ (a = false ∧ s ≤ n ∧ e < n)) := by
  cases a <;> unfold classifyLease <;> refine ⟨?_, ?_, ?_, ?_⟩ <;>
    split_ifs <;> simp_all

/-- C5 counterexample: with the concrete parser instance, the header
line `lease notanip {` carries an IP literal on which `parseIP` fails
(Go's `net.ParseIP` returns `nil` on it), yet the parser does not abort:
the step succeeds and opens a record keyed to the nil IP, refuting the
claimed fatal failure on an unparseable IP literal. -/
theorem c5_counterexample :
    demoLib.parseIP "notanip".toList = none
    ∧ stepLine demoLib initState "lease notanip \x7b".toList
        = .ok { leaseMap := [], currentIP := none,
                currentLease := some (newLeaseInfo none), withinLease := true } := by
  decide

/-- C5 (amended): in the outside-block state a matching `lease <ip> {`
header always succeeds — whether or not the IP literal parses — storing
the (possibly nil) parse result and opening a new in-progress record
with `count = 1` and all other fields empty. -/
theorem c5_amended_header_open (lib : NetLib) (st : ParseState) (line ipLit : Str)
    (hw : st.withinLease = false)
    (hp : hasPrefixStr (trimStr line) "lease ".toList = true)
    (hs : hasSuffixStr (trimStr line) " \x7b".toList = true)
    (ht : (splitOnChar ' ' (trimStr line)).get? 1 = some ipLit) :
    stepLine lib st line
      = .ok { st with currentIP := lib.parseIP ipLit,
                      currentLease := some (newLeaseInfo (lib.parseIP ipLit)),
                      withinLease := true } := by
  simp only [stepLine, hw]
  simp at hp hs ht
  simp [hp, hs, ht]

/-- Witness for C5 (amended) on a concrete parseable header. -/
theorem c5_amended_header_open_witness :
    stepLine demoLib initState "lease 10.0.0.5 \x7b".toList
      = .ok { initState with
                currentIP := demoLib.parseIP "10.0.0.5".toList,
                currentLease := some (newLeaseInfo (demoLib.parseIP "10.0.0.5".toList)),
                withinLease := true } :=
  c5_amended_header_open demoLib initState "lease 10.0.0.5 \x7b".toList "10.0.0.5".toList
    (by decide) (by decide) (by decide) (by decide)

/-- C6 counterexample: when the vendor store was never built (no store
file), the report's read path aborts with the fatal open error instead
of resolving every lookup to the unknown sentinel. -/
theorem c6_counterexample :
    printLeaseMapOrgs none ["00:50:c2".toList]
        = .error "fatal: bolt.Open error".toList
    ∧ printLeaseMapOrgs none ["00:50:c2".toList] ≠ .ok ["UNKNOWN".toList] := by
  decide

/-- C6 (amended): against a successfully opened store whose bucket
exists, a prefix not present resolves to the sentinel `"UNKNOWN"` and
never to an error; but when the store file is absent (never built) the
read path fails fatally at open for every key list instead of returning
the sentinel. -/
theorem c6_amended_lookup (entries : List (Str × Str)) (k : Str)
    (h : mapLookup entries k = none) :
    lookupOrganization ⟨some entries⟩ k = .ok "UNKNOWN".toList
    ∧ ∀ ks : List Str, printLeaseMapOrgs none ks
        = .error "fatal: bolt.Open error".toList := by
  constructor
  · simp [lookupOrganization, bucketGet, h]
  · intro ks
    rfl

/-- Witness for C6 (amended) at a concrete store and missing key. -/
theorem c6_amended_lookup_witness :
    lookupOrganization ⟨some [("00:11:22".toList, "X Corp".toList)]⟩ "aa:bb:cc".toList
        = .ok "UNKNOWN".toList
    ∧ printLeaseMapOrgs none ["aa:bb:cc".toList]
        = .error "fatal: bolt.Open error".toList :=
  ⟨(c6_amended_lookup [("00:11:22".toList, "X Corp".toList)] "aa:bb:cc".toList
      (by decide)).1,
   (c6_amended_lookup [("00:11:22".toList, "X Corp".toList)] "aa:bb:cc".toList
      (by decide)).2 ["aa:bb:cc".toList]⟩

/-- C7 counterexample: two registry lines with the same normalized
prefix; the organization stored at the end of the build is the one of
the line encountered FIRST, not last — later duplicates are skipped. -/
theorem c7_counterexample :
    mapLookup (buildOuiStore ["0050C2                ORG ONE".toList,
                              "0050C2                ORG TWO".toList]) "00:50:c2".toList
      = some "ORG ONE".toList
    ∧ "ORG ONE".toList ≠ "ORG TWO".toList := by
  decide

/-- C7 (amended): during one build, the organization stored for a prefix
is the one from the line encountered first in the file; later duplicate
prefixes are skipped by the `insertedKeys` set. -/
theorem c7_amended_first_wins (lines : List Str) (k : Str) :
    mapLookup (buildOuiStore lines) k
      = ((lines.filterMap parseOuiLine).find? (fun p => decide (p.1 = k))).map (·.2) := by
  unfold buildOuiStore
  rw [buildOuiStoreAux_lookup k lines [] [] (by intro k'; rfl)]
  rfl

/-- C8 counterexample: a registry line with one leading space; its
first 6 characters are not all hexadecimal digits, yet the build does
not skip it — the checks run on the trimmed line, which is accepted
and yields the key from the trimmed characters. -/
theorem c8_counterexample :
    isHexDigits ((" 0050C2                ORG".toList).take 6) = false
    ∧ parseOuiLine " 0050C2                ORG".toList
        = some ("00:50:c2".toList, "ORG".toList) := by
  decide

/-- C8 (amended): the skip conditions and column offsets apply to the
scanned line after trimming surrounding whitespace: the trimmed line is
skipped when shorter than 23 characters or when its first 6 characters
are not all hex digits; otherwise the key is obtained by inserting
colons after every 2 of its first 6 characters and lower-casing, and
the value is the trimmed line from column offset 22 to end of line.
The final conjunct is the claim's own example, with the prefix padded
to column 22. -/
theorem c8_amended_registry_line (line : Str) :
    parseOuiLine line
      = (if (trimStr line).length < 23 ∨ isHexDigits ((trimStr line).take 6) = false
         then none
         else some ((((trimStr line).take 2 ++ [':'] ++ ((trimStr line).drop 2).take 2
                        ++ [':'] ++ ((trimStr line).drop 4).take 2).map Char.toLower),
                    (trimStr line).drop 22))
    ∧ parseOuiLine "0050C2                SOME-ORG DESCRIPTION".toList
        = some ("00:50:c2".toList, "SOME-ORG DESCRIPTION".toList) := by
  constructor
  · unfold parseOuiLine
    by_cases hlen : (trimStr line).length < 23
    · simp [hlen]
    · by_cases hhex : isHexDigits ((trimStr line).take 6) = false
      · simp [hlen, hhex]
      · have hhex' : isHexDigits ((trimStr line).take 6) = true := by
          cases hx : isHexDigits ((trimStr line).take 6)
          · exact absurd hx hhex
          · rfl
        have e1 : ((trimStr line).take 6).take 2 = (trimStr line).take 2 := by
          rw [List.take_take]
          norm_num
        have e2 : (((trimStr line).take 6).drop 2).take 2 = ((trimStr line).drop 2).take 2 := by
          rw [List.drop_take, List.take_take]
          norm_num
        have e3 : ((trimStr line).take 6).drop 4 = ((trimStr line).drop 4).take 2 := by
          rw [List.drop_take]
        simp [hlen, hhex', e1, e2, e3]
  · decide

/-- C9: the report's rows are emitted in the order of the lease-map IPs
sorted ascending by byte-wise (`bytes.Compare`) comparison: the emitted
IP sequence is sorted under `ipLe` and is a permutation of the
collected IPs.  The final two conjuncts exhibit a pair ordered
differently by byte-wise comparison and by lexicographic comparison of
the address strings. -/
theorem c9_report_sorted (m : List (Str × LeaseInfo)) :
    List.Sorted ipLe (sortIPsForReport m)
    ∧ (sortIPsForReport m).Perm (collectIPs m)
    ∧ ipLe [9, 0, 0, 1] [10, 0, 0, 2]
    ∧ ¬ ipLe ("9.0.0.1".toList.map Char.toNat) ("10.0.0.2".toList.map Char.toNat) := by
  refine ⟨List.sorted_insertionSort ipLe _, List.perm_insertionSort ipLe _, ?_, ?_⟩
  · decide
  · decide

/-- C10: a record whose blocks carried no `hardware ethernet` directive
keeps the zero-value MAC, whose string form is empty, and the report's
`macString[0:8]` slice is then out of bounds; under the precondition
that a record's MAC has 6 bytes the slice is total (the string has 17
characters). -/
theorem c10_mac_slice (mac : List Nat) (h : mac.length = 6) :
    (newLeaseInfo none).macAddress = []
    ∧ macHwString [] = []
    ∧ rowOuiKey [] = none
    ∧ (macHwString mac).length = 17
    ∧ rowOuiKey mac ≠ none := by
  refine ⟨rfl, rfl, by decide, ?_, ?_⟩
  · rcases mac with _ | ⟨a, _ | ⟨b, _ | ⟨c, _ | ⟨d, _ | ⟨e, _ | ⟨f, rest⟩⟩⟩⟩⟩⟩ <;>
      simp_all [macHwString, hexByteChars]
  · rcases mac with _ | ⟨a, _ | ⟨b, _ | ⟨c, _ | ⟨d, _ | ⟨e, _ | ⟨f, rest⟩⟩⟩⟩⟩⟩ <;>
      simp_all [rowOuiKey, goStringSlice, macHwString, hexByteChars]

/-- Witness for C10 at a concrete 6-byte MAC. -/
theorem c10_mac_slice_witness :
    (macHwString [0, 80, 194, 170, 187, 204]).length = 17
    ∧ rowOuiKey [0, 80, 194, 170, 187, 204] ≠ none :=
  ⟨(c10_mac_slice [0, 80, 194, 170, 187, 204] (by decide)).2.2.2.1,
   (c10_mac_slice [0, 80, 194, 170, 187, 204] (by decide)).2.2.2.2⟩

end DhcpLeases
